import Mathlib

/-!
Verification of the packed Hilbert R-tree index-building core of the repository
(`src/geoq/fgb/index.rs` and `src/geoq/fgb/hilbert.rs`).

The Rust code is shallowly embedded:
* machine integers (`usize`, `u32`, `u64`) become `Nat`, with an explicit
  `% 2 ^ 32` wherever a `u32` operation can wrap (left shifts);
* `f64` coordinates become exact rationals `ℚ` — the bounding-box code performs
  only comparisons and the exact operations `+`, `-`, `*`, `/ 2` on them, so on
  finite inputs the rational model is exact except where a doc comment says
  otherwise; the index-builder model extends ℚ with `±∞` because the node
  placeholder `BBox::empty()` is an inverted-infinities sentinel;
* code that can panic (out-of-bounds indexing, `expect`) or diverge (the
  unbounded level-size loop) returns `Option`, `none` meaning panic/divergence,
  with loops driven by explicit fuel where the source loop is unbounded.
-/

namespace Geoq

/-! ## Level-bounds planner (`index.rs`, `calculate_level_bounds`) -/

/-- `NODE_SIZE` from `index.rs` (the fan-out, `pub const NODE_SIZE: u16 = 16`). -/
def NODE_SIZE : ℕ := 16

/-- One step of the parent-level size computation inside the loop of
`calculate_level_bounds`:
`if current % 16 == 0 { current/16 } else { current/16 + 1 }`. -/
def nextLevelSize (cur : ℕ) : ℕ :=
  if cur % NODE_SIZE = 0 then cur / NODE_SIZE else cur / NODE_SIZE + 1

/-- The unbounded `loop { ... }` of `calculate_level_bounds`, with explicit
fuel: each iteration pushes the current level size, computes the next size,
and either pushes the final `1` and stops or continues.  `none` models
divergence (fuel exhausted: the source loop never exits). -/
def levelLoop : ℕ → ℕ → List ℕ → Option (List ℕ)
  | 0, _, _ => none
  | fuel + 1, cur, acc =>
    if nextLevelSize cur = 1 then some (acc ++ [cur] ++ [nextLevelSize cur])
    else levelLoop fuel (nextLevelSize cur) (acc ++ [cur])

/-- `RTreeIndexMeta` from `index.rs`; `std::ops::Range` becomes a start/end
pair of naturals. -/
structure RTreeIndexMeta where
  num_features : ℕ
  num_nodes : ℕ
  num_nodes_per_level : List ℕ
  level_bounds : List (ℕ × ℕ)
  deriving DecidableEq, Repr

/-- The second half of `calculate_level_bounds`: running-total conversion of
the root-first level sizes into contiguous ranges
(`nodes_so_far = 0; for n in levels { push (so_far, n + so_far) ... }`). -/
def boundsLoop : ℕ → List ℕ → List (ℕ × ℕ)
  | _, [] => []
  | acc, n :: rest => (acc, n + acc) :: boundsLoop (n + acc) rest

/-- `calculate_level_bounds` with explicit fuel for its unbounded loop. -/
def calculateLevelBoundsF (fuel n : ℕ) : Option RTreeIndexMeta :=
  (levelLoop fuel n []).map fun sizes =>
    let npl := sizes.reverse
    { num_features := n
      num_nodes := npl.sum
      num_nodes_per_level := npl
      level_bounds := boundsLoop 0 npl }

/-- `calculate_level_bounds` at the canonical fuel `n + 2`.  By
`levelLoop_fuel_mono` the result is independent of the fuel whenever any fuel
suffices, and by `levelLoop_some` the fuel `n + 2` suffices for every
`n ≥ 1`; for `n = 0` no fuel suffices (`levelLoop_zero`), matching the
divergence of the source loop. -/
def calculateLevelBounds (n : ℕ) : Option RTreeIndexMeta :=
  calculateLevelBoundsF (n + 2) n

theorem levelLoop_zero : ∀ fuel acc, levelLoop fuel 0 acc = none := by
  intro fuel
  induction fuel with
  | zero => intro acc; rfl
  | succ f ih =>
    intro acc
    simp only [levelLoop, nextLevelSize, NODE_SIZE]
    norm_num
    exact ih (acc ++ [0])

theorem levelLoop_fuel_mono : ∀ fuel fuel' cur acc r, fuel ≤ fuel' →
    levelLoop fuel cur acc = some r → levelLoop fuel' cur acc = some r := by
  intro fuel
  induction fuel with
  | zero => intro _ _ _ _ _ h; simp [levelLoop] at h
  | succ f ih =>
    intro fuel' cur acc r hle h
    obtain ⟨f', rfl⟩ : ∃ f', fuel' = f' + 1 :=
      ⟨fuel' - 1, by omega⟩
    simp only [levelLoop] at h ⊢
    by_cases hn : nextLevelSize cur = 1
    · simpa [hn] using h
    · simp only [hn, if_false] at h ⊢
      exact ih f' _ _ r (by omega) h

theorem levelLoop_some : ∀ fuel cur acc, 1 ≤ cur → cur ≤ fuel →
    ∃ r, levelLoop fuel cur acc = some r := by
  intro fuel
  induction fuel with
  | zero => intro cur acc h1 h2; omega
  | succ f ih =>
    intro cur acc h1 h2
    simp only [levelLoop]
    by_cases hn : nextLevelSize cur = 1
    · simp only [hn, if_true]
      exact ⟨_, rfl⟩
    · have e1 : 16 * (cur / 16) + cur % 16 = cur := Nat.div_add_mod cur 16
      have e2 : cur % 16 < 16 := Nat.mod_lt _ (by norm_num)
      have h0 : cur % 16 = 0 → nextLevelSize cur = cur / 16 := by
        intro h; simp [nextLevelSize, NODE_SIZE, h]
      have h0' : cur % 16 ≠ 0 → nextLevelSize cur = cur / 16 + 1 := by
        intro h; simp [nextLevelSize, NODE_SIZE, h]
      have hge : 1 ≤ nextLevelSize cur := by
        by_cases h : cur % 16 = 0
        · rw [h0 h]; omega
        · rw [h0' h]; omega
      have hlt : nextLevelSize cur ≤ f := by
        by_cases h : cur % 16 = 0
        · rw [h0 h]; omega
        · rw [h0' h]; rw [h0' h] at hn; omega
      obtain ⟨r, hr⟩ := ih (nextLevelSize cur) (acc ++ [cur]) hge hlt
      simp only [hn, if_false]
      exact ⟨r, hr⟩

theorem levelLoop_ends_one : ∀ fuel cur acc r, levelLoop fuel cur acc = some r →
    ∃ l, r = acc ++ l ++ [1] := by
  intro fuel
  induction fuel with
  | zero => intro _ _ _ h; simp [levelLoop] at h
  | succ f ih =>
    intro cur acc r h
    simp only [levelLoop] at h
    by_cases hn : nextLevelSize cur = 1
    · rw [if_pos hn, hn] at h
      exact ⟨[cur], by simpa using (Option.some_inj.mp h).symm⟩
    · rw [if_neg hn] at h
      obtain ⟨l, hl⟩ := ih _ _ _ h
      exact ⟨cur :: l, by simpa using hl⟩

/-! Properties of the bounds computation, stated the way the spec phrases the
partition property: the ranges are contiguous starting from a given offset and
their lengths match the level sizes. -/

/-- `ChainFrom s bs t` says the ranges `bs` tile `[s, t)` contiguously in
order. -/
def ChainFrom : ℕ → List (ℕ × ℕ) → ℕ → Prop
  | s, [], t => s = t
  | s, (a, b) :: rest, t => a = s ∧ ChainFrom b rest t

/-- The partition property the claims state: the ranges' lengths match
`lens` and they tile `[0, total)` contiguously in order. -/
def Partitions (bs : List (ℕ × ℕ)) (lens : List ℕ) (total : ℕ) : Prop :=
  bs.map (fun r => r.2 - r.1) = lens ∧ ChainFrom 0 bs total

theorem boundsLoop_spec : ∀ (l : List ℕ) (acc : ℕ),
    (boundsLoop acc l).map (fun r => r.2 - r.1) = l ∧
      ChainFrom acc (boundsLoop acc l) (acc + l.sum) := by
  intro l
  induction l with
  | nil => intro acc; simp [boundsLoop, ChainFrom]
  | cons n rest ih =>
    intro acc
    obtain ⟨h1, h2⟩ := ih (n + acc)
    constructor
    · simp [boundsLoop, h1]
    · have e : acc + (n :: rest).sum = n + acc + rest.sum := by
        simp only [List.sum_cons]; omega
      rw [boundsLoop, e]
      exact ⟨rfl, h2⟩

/-! ## Claims about the planner -/

/-- C3: the claim says `calculate_level_bounds(0)` short-circuits, terminates
and returns a single root-only layout.  The code has no such guard: for
`num_features = 0` the level-size loop never reaches size 1, so the call
diverges — `none` for every amount of fuel.  The spec is the intent
(§4.4/§7 require the special case); the code is the bug. -/
theorem C3_zero_diverges (fuel : ℕ) : calculateLevelBoundsF fuel 0 = none := by
  simp [calculateLevelBoundsF, levelLoop_zero]

/-- C4 counterexample: at `n = 0` no layout is returned at all (the source
loop diverges; the canonical-fuel embedding returns `none`), so the claim's
"for all n ≥ 0" fails at `n = 0`. -/
theorem C4_counterexample : calculateLevelBounds 0 = none := by
  simp [calculateLevelBounds, C3_zero_diverges]

/-- C4 (amended to `n ≥ 1`): the layout returned by `calculate_level_bounds`
has `sum(nodes_per_level) = num_nodes`, a single root (`nodes_per_level[0] = 1`),
and `level_bounds` contiguously partitions `[0, num_nodes)` root-first with
lengths matching `nodes_per_level`. -/
theorem C4_layout_invariants (n : ℕ) (h : 1 ≤ n) :
    ∃ m, calculateLevelBounds n = some m ∧
      m.num_nodes_per_level.sum = m.num_nodes ∧
      m.num_nodes_per_level.headD 0 = 1 ∧
      Partitions m.level_bounds m.num_nodes_per_level m.num_nodes := by
  obtain ⟨r, hr⟩ := levelLoop_some (n + 2) n [] h (by omega)
  refine ⟨⟨n, r.reverse.sum, r.reverse, boundsLoop 0 r.reverse⟩, ?_, rfl, ?_, ?_⟩
  · simp [calculateLevelBounds, calculateLevelBoundsF, hr]
  · obtain ⟨l, rfl⟩ := levelLoop_ends_one _ _ _ _ hr
    simp
  · obtain ⟨h1, h2⟩ := boundsLoop_spec r.reverse 0
    exact ⟨h1, by simpa using h2⟩

/-- C4 witness: the amended invariants instantiated at `n = 5`. -/
theorem C4_witness : ∃ m, calculateLevelBounds 5 = some m ∧
    m.num_nodes_per_level.sum = m.num_nodes ∧
    m.num_nodes_per_level.headD 0 = 1 ∧
    Partitions m.level_bounds m.num_nodes_per_level m.num_nodes :=
  C4_layout_invariants 5 (by norm_num)

/-- C7: the planner reproduces the literal fixtures from the spec and from
`test_level_bounds`: `n = 179`, `n = 15` and `n = 100000`. -/
theorem C7_fixtures :
    calculateLevelBounds 179 =
      some ⟨179, 192, [1, 12, 179], [(0, 1), (1, 13), (13, 192)]⟩ ∧
    calculateLevelBounds 15 =
      some ⟨15, 16, [1, 15], [(0, 1), (1, 16)]⟩ ∧
    calculateLevelBounds 100000 =
      some ⟨100000, 106669, [1, 2, 25, 391, 6250, 100000],
        [(0, 1), (1, 3), (3, 28), (28, 419), (419, 6669), (6669, 106669)]⟩ := by
  refine ⟨?_, ?_, ?_⟩ <;> rfl

/-- C9: for every `num_features ≥ 1` the level-size loop of
`calculate_level_bounds` terminates — some finite fuel yields a result (the
level size strictly decreases to 1). -/
theorem C9_terminates (n : ℕ) (h : 1 ≤ n) :
    ∃ fuel r, levelLoop fuel n [] = some r :=
  ⟨n, levelLoop_some n n [] h (le_refl n)⟩

/-- C9 witness: termination instantiated at `n = 7`. -/
theorem C9_witness : ∃ fuel r, levelLoop fuel 7 [] = some r :=
  C9_terminates 7 (by norm_num)

end Geoq

namespace Geoq.Idx

/-!
## Flattened tree builder (`index.rs`, `build_flattened_tree`)

`f64` is modelled as ℚ extended with `±∞` (`XQ`): the only `f64` operations the
builder performs on coordinates are `<` / `>` comparisons inside
`BBox::expand`, which are exact in this model, and the `BBox::empty()`
placeholder is the inverted-infinities sentinel, which needs the infinite
elements.
-/

/-- Extended rationals: exact model of the `f64` values flowing through the
index builder (finite coordinates plus the `±∞` used by the empty sentinel). -/
inductive XQ where
  | negInf : XQ
  | fin : ℚ → XQ
  | posInf : XQ
  deriving DecidableEq, Repr

/-- IEEE `<` on the modelled values. -/
def XQ.blt : XQ → XQ → Bool
  | .negInf, .negInf => false
  | .negInf, _ => true
  | .fin _, .negInf => false
  | .fin a, .fin b => a < b
  | .fin _, .posInf => true
  | .posInf, _ => false

/-- IEEE `>` on the modelled values. -/
def XQ.bgt (a b : XQ) : Bool := XQ.blt b a

/-- `BBox` from `hilbert.rs` as used by the index builder. -/
structure BBox where
  min_x : XQ
  min_y : XQ
  max_x : XQ
  max_y : XQ
  deriving DecidableEq, Repr

/-- `BBox::expand`: grow `self` to the union of the two boxes; the four field
updates are independent `<` / `>` comparisons exactly as in the source. -/
def BBox.expand (s o : BBox) : BBox where
  min_x := if XQ.blt o.min_x s.min_x then o.min_x else s.min_x
  min_y := if XQ.blt o.min_y s.min_y then o.min_y else s.min_y
  max_x := if XQ.bgt o.max_x s.max_x then o.max_x else s.max_x
  max_y := if XQ.bgt o.max_y s.max_y then o.max_y else s.max_y

/-- Modelled from the spec: `BBox::empty()` is used by `build_flattened_tree`
but its definition is not among the provided sources; per spec §3 it is the
"distinguished 'empty' sentinel (e.g. inverted infinities) used only as a
neutral accumulator", i.e. `min = +∞`, `max = -∞`. -/
def BBox.empty : BBox := ⟨.posInf, .posInf, .negInf, .negInf⟩

/-- Modelled from the spec: `IndexNode` is used by `index.rs` but defined in a
source file not provided; per spec §3 it is `{bbox: BBox, offset: u64}`. -/
structure IndexNode where
  bbox : BBox
  offset : ℕ
  deriving DecidableEq, Repr

/-- Bounds-checked write `tree[i] = v` (Rust indexing panics out of bounds,
modelled as `none`). -/
def setNode? (l : List IndexNode) (i : ℕ) (v : IndexNode) : Option (List IndexNode) :=
  if i < l.length then some (l.set i v) else none

/-- The innermost loop of the bottom-up aggregation:
`for prev_idx in slice_start..slice_end { if prev_idx > prev_level.len() { break; } ... }`,
folding `bbox.expand` over the visited child slots (first visited child
replaces the `None` accumulator, as in the source).  `steps` is the number of
slice positions left (the slice always has `NODE_SIZE` positions); the outer
`none` models an out-of-bounds read panic. -/
def aggLoop (tree : List IndexNode) (prevLen : ℕ) :
    ℕ → ℕ → Option BBox → Option (Option BBox)
  | _, 0, acc => some acc
  | i, steps + 1, acc =>
    if prevLen < i then some acc
    else match tree.get? i with
      | none => none
      | some node =>
        aggLoop tree prevLen (i + 1) steps
          (some (match acc with | some bb => bb.expand node.bbox | none => node.bbox))

/-- The per-level node loop of the aggregation: for each `node_index` in the
current level's range, aggregate the slice
`[prev.start + node_index*16, prev.start + (node_index+1)*16)` of the flat
array (note: the source uses the node's absolute array index here) and store
`{bbox: agg.unwrap_or(empty), offset: 0}`.  `cnt` is the number of node
indices left in the level's range. -/
def aggNodes (prevStart prevLen : ℕ) :
    ℕ → ℕ → List IndexNode → Option (List IndexNode)
  | _, 0, tree => some tree
  | ni, cnt + 1, tree => do
    let acc ← aggLoop tree prevLen (prevStart + ni * NODE_SIZE) NODE_SIZE none
    let tree' ← setNode? tree ni ⟨acc.getD BBox.empty, 0⟩
    aggNodes prevStart prevLen (ni + 1) cnt tree'

/-- The level loop of the aggregation:
`level_bounds.iter().enumerate().rev().skip(1)` visits level indices
`len-2, len-3, ..., 0`, each aggregated from the next-finer level. -/
def aggLevels (lb : List (ℕ × ℕ)) (tree : List IndexNode) :
    Option (List IndexNode) :=
  (List.range (lb.length - 1)).reverse.foldlM
    (fun t li => do
      let cur ← lb.get? li
      let prev ← lb.get? (li + 1)
      aggNodes prev.1 (prev.2 - prev.1) cur.1 (cur.2 - cur.1) t)
    tree

/-- The leaf-fill loop: `for (feature_index, node_index) in bottom.enumerate()`
copies `hilbert_sorted_features[feature_index]` into the bottom level's slots
verbatim; `cnt` is the number of bottom slots left. -/
def leafFillLoop (leaves : List IndexNode) (bstart : ℕ) :
    ℕ → ℕ → List IndexNode → Option (List IndexNode)
  | _, 0, tree => some tree
  | fi, cnt + 1, tree => do
    let lf ← leaves.get? fi
    let tree' ← setNode? tree (bstart + fi) lf
    leafFillLoop leaves bstart (fi + 1) cnt tree'

/-- `build_flattened_tree` (the source also takes an `extent: &BBox` argument
that its body never uses): plan the layout, allocate placeholder nodes, fill
the bottom level from the sorted leaves, then aggregate bottom-up. -/
def build_flattened_tree (leaves : List IndexNode) :
    Option (RTreeIndexMeta × List IndexNode) := do
  let ts ← calculateLevelBounds leaves.length
  let tree0 := List.replicate ts.num_nodes (⟨BBox.empty, 0⟩ : IndexNode)
  let bottom ← ts.level_bounds.getLast?
  let t1 ← leafFillLoop leaves bottom.1 0 (bottom.2 - bottom.1) tree0
  let t2 ← aggLevels ts.level_bounds t1
  pure (ts, t2)

/-- The union of a list of bboxes, folded with `BBox::expand` exactly the way
the aggregation's accumulator folds its children (first box seeds the
accumulator); `none` for the empty list. -/
def unionList (bs : List BBox) : Option BBox :=
  bs.foldl (fun acc bb => some (match acc with | some a => a.expand bb | none => bb)) none

/-- A leaf node with bbox `[a, a, b, b]` and offset `a`, for the concrete
inputs below. -/
def mkLeaf (a b : ℚ) (off : ℕ) : IndexNode := ⟨⟨.fin a, .fin a, .fin b, .fin b⟩, off⟩

/-- A 17-leaf input (three tree levels `[1, 2, 17]`): leaf `i` has bbox
`[i, i, i+1, i+1]` and offset `i`. -/
def leaves17 : List IndexNode :=
  [mkLeaf 0 1 0, mkLeaf 1 2 1, mkLeaf 2 3 2, mkLeaf 3 4 3, mkLeaf 4 5 4,
   mkLeaf 5 6 5, mkLeaf 6 7 6, mkLeaf 7 8 7, mkLeaf 8 9 8, mkLeaf 9 10 9,
   mkLeaf 10 11 10, mkLeaf 11 12 11, mkLeaf 12 13 12, mkLeaf 13 14 13,
   mkLeaf 14 15 14, mkLeaf 15 16 15, mkLeaf 16 17 16]

/-- C1: the claim says the bbox of node `i` of a non-leaf level is the union
of the children at positions `[prev.start + i*16, prev.start + (i+1)*16)` of
the next-finer level, clipped to `prev`'s end.  The code instead computes the
slice from the node's absolute array index and clips at `prev.len()` rather
than `prev.end`: on 17 leaves, level 1's first node (array slot 1, `i = 0`)
should be the union of slots `[3, 19)` — which is `[0,0,16,16]`, not the
empty sentinel — but the code reads slots `[19, 35)` clipped at 17, i.e.
nothing, and stores the empty sentinel. -/
theorem C1_agg_bug :
    (build_flattened_tree leaves17).map
        (fun r => (r.2.get? 1).map IndexNode.bbox) = some (some BBox.empty) ∧
      (build_flattened_tree leaves17).map
        (fun r => unionList (((r.2.drop 3).take 16).map IndexNode.bbox)) =
        some (some ⟨.fin 0, .fin 0, .fin 16, .fin 16⟩) ∧
      (⟨.fin 0, .fin 0, .fin 16, .fin 16⟩ : BBox) ≠ BBox.empty := by
  refine ⟨by decide, by decide, by decide⟩

/-- C2: the claim says the root node's bbox is the union of all input leaf
bboxes for every non-empty input.  On 17 leaves the union of all leaves is
`[0,0,17,17]`, but due to the aggregation bug both level-1 nodes are the
empty sentinel and so is the root — the root bbox does not equal the union
(hence not the supplied extent either). -/
theorem C2_root_bug :
    (build_flattened_tree leaves17).map
        (fun r => (r.2.get? 0).map IndexNode.bbox) = some (some BBox.empty) ∧
      unionList (leaves17.map IndexNode.bbox) =
        some ⟨.fin 0, .fin 0, .fin 17, .fin 17⟩ ∧
      (⟨.fin 0, .fin 0, .fin 17, .fin 17⟩ : BBox) ≠ BBox.empty := by
  refine ⟨by decide, by decide, by decide⟩

end Geoq.Idx

namespace Geoq.Hilbert

/-!
## Hilbert encoder (`hilbert.rs`, `fn hilbert`)

The `u32` registers become `Nat`; the bitwise operations `^ | & >>` can never
overflow, and each left shift carries an explicit `% 2 ^ 32` for the `u32`
wrap-around.  Each mutable register of the source is a named definition
(`a0..d0` the initial values, `a1..d1` after the first scan round, `a2..d2`
and `a3..d3` after the shift-2 and shift-4 rounds, `c4 d4` after the shift-8
round which updates only `cc dd`, `aF bF` the final gray-coded pair). -/

/-- The `u32` modulus. -/
def U32 : ℕ := 2 ^ 32

def a0 (x y : ℕ) : ℕ := x ^^^ y

def b0 (x y : ℕ) : ℕ := 0xFFFF ^^^ a0 x y

def c0 (x y : ℕ) : ℕ := 0xFFFF ^^^ (x ||| y)

def d0 (x y : ℕ) : ℕ := x &&& (y ^^^ 0xFFFF)

def a1 (x y : ℕ) : ℕ := a0 x y ||| (b0 x y >>> 1)

def b1 (x y : ℕ) : ℕ := (a0 x y >>> 1) ^^^ a0 x y

def c1 (x y : ℕ) : ℕ := ((c0 x y >>> 1) ^^^ (b0 x y &&& (d0 x y >>> 1))) ^^^ c0 x y

def d1 (x y : ℕ) : ℕ := ((a0 x y &&& (c0 x y >>> 1)) ^^^ (d0 x y >>> 1)) ^^^ d0 x y

def a2 (x y : ℕ) : ℕ := (a1 x y &&& (a1 x y >>> 2)) ^^^ (b1 x y &&& (b1 x y >>> 2))

def b2 (x y : ℕ) : ℕ :=
  (a1 x y &&& (b1 x y >>> 2)) ^^^ (b1 x y &&& ((a1 x y ^^^ b1 x y) >>> 2))

def c2 (x y : ℕ) : ℕ :=
  c1 x y ^^^ ((a1 x y &&& (c1 x y >>> 2)) ^^^ (b1 x y &&& (d1 x y >>> 2)))

def d2 (x y : ℕ) : ℕ :=
  d1 x y ^^^ ((b1 x y &&& (c1 x y >>> 2)) ^^^ ((a1 x y ^^^ b1 x y) &&& (d1 x y >>> 2)))

def a3 (x y : ℕ) : ℕ := (a2 x y &&& (a2 x y >>> 4)) ^^^ (b2 x y &&& (b2 x y >>> 4))

def b3 (x y : ℕ) : ℕ :=
  (a2 x y &&& (b2 x y >>> 4)) ^^^ (b2 x y &&& ((a2 x y ^^^ b2 x y) >>> 4))

def c3 (x y : ℕ) : ℕ :=
  c2 x y ^^^ ((a2 x y &&& (c2 x y >>> 4)) ^^^ (b2 x y &&& (d2 x y >>> 4)))

def d3 (x y : ℕ) : ℕ :=
  d2 x y ^^^ ((b2 x y &&& (c2 x y >>> 4)) ^^^ ((a2 x y ^^^ b2 x y) &&& (d2 x y >>> 4)))

def c4 (x y : ℕ) : ℕ :=
  c3 x y ^^^ ((a3 x y &&& (c3 x y >>> 8)) ^^^ (b3 x y &&& (d3 x y >>> 8)))

def d4 (x y : ℕ) : ℕ :=
  d3 x y ^^^ ((b3 x y &&& (c3 x y >>> 8)) ^^^ ((a3 x y ^^^ b3 x y) &&& (d3 x y >>> 8)))

def aF (x y : ℕ) : ℕ := c4 x y ^^^ (c4 x y >>> 1)

def bF (x y : ℕ) : ℕ := d4 x y ^^^ (d4 x y >>> 1)

def i0v (x y : ℕ) : ℕ := x ^^^ y

def i1v (x y : ℕ) : ℕ := bF x y ||| (0xFFFF ^^^ (i0v x y ||| aF x y))

/-- The four interleave steps applied to `i0` and `i1` at the end of
`hilbert` (`(v | (v << k)) & mask` for `k = 8,4,2,1`). -/
def spread (v : ℕ) : ℕ :=
  let v1 := (v ||| (v <<< 8) % U32) &&& 0x00FF00FF
  let v2 := (v1 ||| (v1 <<< 4) % U32) &&& 0x0F0F0F0F
  let v3 := (v2 ||| (v2 <<< 2) % U32) &&& 0x33333333
  (v3 ||| (v3 <<< 1) % U32) &&& 0x55555555

/-- `fn hilbert(x: u32, y: u32) -> u32`: the order-16 Hilbert curve position
of a 16-bit grid cell (`value = (i1 << 1) | i0` after spreading). -/
def hilbert (x y : ℕ) : ℕ := ((spread (i1v x y) <<< 1) % U32) ||| spread (i0v x y)

end Geoq.Hilbert

namespace Geoq.Geom

/-!
## Bounding boxes and geometry recursion (`hilbert.rs`, `impl BBox`)

`f64` coordinates are modelled as exact rationals.  The expand/center
computations on finite inputs use only comparisons and small exact arithmetic
(`+`, `-`, `* /` of integers and halving), which ℚ models exactly up to `f64`
rounding; rounding never affects which branch is taken in the claims below.
`f64` division is partial in the model: `qdiv?` returns `none` on a zero
denominator (where `f64` would produce `±inf`/NaN), so reaching a division by
zero is observable. -/

/-- `BBox` from `hilbert.rs` (geometry side, finite coordinates). -/
structure BBox where
  min_x : ℚ
  min_y : ℚ
  max_x : ℚ
  max_y : ℚ
  deriving DecidableEq, Repr

/-- `BBox::new(x, y)`: degenerate box at a point. -/
def BBox.new (x y : ℚ) : BBox := ⟨x, y, x, y⟩

/-- `BBox::expand_xy`. -/
def BBox.expand_xy (bb : BBox) (x y : ℚ) : BBox where
  min_x := if x < bb.min_x then x else bb.min_x
  min_y := if y < bb.min_y then y else bb.min_y
  max_x := if x > bb.max_x then x else bb.max_x
  max_y := if y > bb.max_y then y else bb.max_y

/-- `BBox::expand_vec`: `self.expand_xy(coords[0], coords[1])`; the two index
accesses panic (`none`) when the position has fewer than two numbers. -/
def BBox.expand_vec (bb : BBox) (coords : List ℚ) : Option BBox := do
  let x ← coords.get? 0
  let y ← coords.get? 1
  pure (bb.expand_xy x y)

/-- `BBox::expand_vec_vec`. -/
def BBox.expand_vec_vec (bb : BBox) (coords : List (List ℚ)) : Option BBox :=
  coords.foldlM BBox.expand_vec bb

/-- `BBox::expand_vec_vec_vec`. -/
def BBox.expand_vec_vec_vec (bb : BBox) (rings : List (List (List ℚ))) : Option BBox :=
  rings.foldlM BBox.expand_vec_vec bb

/-- `BBox::expand_vec_vec_vec_vec`. -/
def BBox.expand_vec_vec_vec_vec (bb : BBox) (polys : List (List (List (List ℚ)))) :
    Option BBox :=
  polys.foldlM BBox.expand_vec_vec_vec bb

/-- `geojson::Value` (the external GeoJSON geometry type the source matches
on), with positions as lists of numbers and geometry collections recursing. -/
inductive Value where
  | point : List ℚ → Value
  | multiPoint : List (List ℚ) → Value
  | lineString : List (List ℚ) → Value
  | multiLineString : List (List (List ℚ)) → Value
  | polygon : List (List (List ℚ)) → Value
  | multiPolygon : List (List (List (List ℚ))) → Value
  | geometryCollection : List Value → Value

/-- `BBox::expand_geom`: dispatch on the geometry nesting form, recursing
into geometry collections. -/
def BBox.expand_geom (bb : BBox) : Value → Option BBox
  | .point coords => bb.expand_vec coords
  | .multiPoint coords => bb.expand_vec_vec coords
  | .lineString coords => bb.expand_vec_vec coords
  | .multiLineString coords => bb.expand_vec_vec_vec coords
  | .polygon coords => bb.expand_vec_vec_vec coords
  | .multiPolygon coords => bb.expand_vec_vec_vec_vec coords
  | .geometryCollection geoms => expandGeomList bb geoms
where
  /-- The `for geom in geoms { self.expand_geom(&geom.value) }` loop. -/
  expandGeomList (bb : BBox) : List Value → Option BBox
    | [] => some bb
    | g :: gs => do
      let bb' ← bb.expand_geom g
      expandGeomList bb' gs

/-- `geojson::Feature`, reduced to the only field the source reads
(`feat.geometry`, an optional geometry). -/
structure Feature where
  geometry : Option Value

/-- `BBox::expand_feature`: no geometry means no expansion. -/
def BBox.expand_feature (bb : BBox) (f : Feature) : Option BBox :=
  match f.geometry with
  | none => some bb
  | some g => bb.expand_geom g

/-- `fn coord`: the representative coordinate of a geometry.  Each match arm
produces an optional pair (`none` = the arm found no first element), the
whole wrapped in the panic monad (`coords[0]`/`c[0]`/`c[1]` accesses panic on
short positions); `o.unwrap_or((0.0, 0.0))` resolves the inner option. -/
def coord (g : Value) : Option (ℚ × ℚ) := (coordArm g).map (fun o => o.getD (0, 0))
where
  coordArm : Value → Option (Option (ℚ × ℚ))
    | .point c => do
      let x ← c.get? 0
      let y ← c.get? 1
      pure (some (x, y))
    | .multiPoint cs => firstPair cs
    | .lineString cs => firstPair cs
    | .polygon rs =>
      match rs with
      | [] => pure none
      | r :: _ => firstPair r
    | .multiLineString ls =>
      match ls with
      | [] => pure none
      | l :: _ => firstPair l
    | .multiPolygon ps =>
      match ps with
      | [] => pure none
      | rs :: _ =>
        match rs with
        | [] => pure none
        | r :: _ => firstPair r
    | .geometryCollection gs =>
      match gs with
      | [] => pure none
      | g :: _ => do
        let p ← (coordArm g).map (fun o => o.getD (0, 0))
        pure (some p)
  /-- `cs.first().map(|c| (c[0], c[1]))` with panicking index accesses. -/
  firstPair : List (List ℚ) → Option (Option (ℚ × ℚ))
    | [] => pure none
    | c :: _ => do
      let x ← c.get? 0
      let y ← c.get? 1
      pure (some (x, y))

/-- `fn feat_coord`. -/
def feat_coord (f : Feature) : Option (ℚ × ℚ) :=
  match f.geometry with
  | none => some (0, 0)
  | some g => coord g

/-- `BBox::for_feature`: seed a degenerate box at the representative
coordinate, then expand over the whole geometry. -/
def BBox.for_feature (f : Feature) : Option BBox := do
  let p ← feat_coord f
  (BBox.new p.1 p.2).expand_feature f

/-- `BBox::center` as written in the source: both components use the x-axis
bounds (`(min_x + max_x) / 2` twice). -/
def BBox.center (b : BBox) : ℚ × ℚ :=
  ((b.min_x + b.max_x) / 2, (b.min_x + b.max_x) / 2)

/-- `BBox::width`. -/
def BBox.width (b : BBox) : ℚ := b.max_x - b.min_x

/-- `BBox::height`. -/
def BBox.height (b : BBox) : ℚ := b.max_y - b.min_y

/-- `const HILBERT_MAX: f64 = ((1 << 16) - 1) as f64`. -/
def HILBERT_MAX : ℚ := 65535

/-- `f64` division, partial at a zero denominator (`f64` produces `±inf` or
NaN there, not a number; the model makes reaching that case observable as
`none`). -/
def qdiv? (a b : ℚ) : Option ℚ := if b = 0 then none else some (a / b)

/-- `(q.floor()) as u32`: `f64`-to-`u32` `as` casts saturate (negative → 0,
above `u32::MAX` → `u32::MAX`). -/
def floorAsU32 (q : ℚ) : ℕ :=
  if q < 0 then 0 else min (⌊q⌋.toNat) (2 ^ 32 - 1)

/-- `BBox::hilbert_bbox`: scale the center to the 16-bit grid
(`(HILBERT_MAX * mid / extent_dim).floor() as u32`) and encode.  The source
performs both divisions unconditionally. -/
def BBox.hilbert_bbox (b extent : BBox) : Option ℕ := do
  let mid := b.center
  let qx ← qdiv? (HILBERT_MAX * mid.1) extent.width
  let qy ← qdiv? (HILBERT_MAX * mid.2) extent.height
  pure (Geoq.Hilbert.hilbert (floorAsU32 qx) (floorAsU32 qy))

/-- C5: the claim says a degenerate extent (`width == 0` or `height == 0`) is
guarded and the corresponding grid coordinate is treated as 0 instead of
dividing.  The source has no such guard: with the extent `[1,0]×[1,8]`
(width 0) the computation reaches the division by zero (`none` in the model;
in `f64` it yields `±inf`/NaN and the saturating cast turns the grid
coordinate into `u32::MAX` or 0), instead of the guarded grid coordinate 0. -/
theorem C5_no_divzero_guard :
    BBox.hilbert_bbox ⟨2, 1, 3, 4⟩ ⟨1, 0, 1, 8⟩ = none := by
  have hw : BBox.width ⟨1, 0, 1, 8⟩ = 0 := by norm_num [BBox.width]
  simp [BBox.hilbert_bbox, qdiv?, hw]

/-- C6: the claim says the center's y-coordinate is `(min_y + max_y) / 2` and
never reuses the x-axis bounds.  In the source both components are
`(min_x + max_x) / 2`: on the box `[0,10]×[2,20]` (min_x 0, min_y 10,
max_x 2, max_y 20) the computed center is `(1, 1)` while the claimed
y-coordinate is `15`. -/
theorem C6_center_bug :
    (BBox.center ⟨0, 10, 2, 20⟩).2 = 1 ∧
      ((BBox.mk 0 10 2 20).min_y + (BBox.mk 0 10 2 20).max_y) / 2 = 15 ∧
      (1 : ℚ) ≠ 15 := by
  refine ⟨by norm_num [BBox.center], by norm_num, by norm_num⟩

end Geoq.Geom

namespace Geoq.Geom

/-!
### C10: totality of `BBox::for_feature` on well-formed features

The precondition: every coordinate position appearing anywhere in the
geometry (at any nesting depth, including inside multi-geometries and
geometry collections) is a vector of at least 2 numbers. -/

mutual

/-- Every position in the geometry has at least 2 numbers. -/
def validCoords : Value → Bool
  | .point c => decide (2 ≤ c.length)
  | .multiPoint cs => cs.all fun c => decide (2 ≤ c.length)
  | .lineString cs => cs.all fun c => decide (2 ≤ c.length)
  | .multiLineString ls => ls.all fun l => l.all fun c => decide (2 ≤ c.length)
  | .polygon rs => rs.all fun r => r.all fun c => decide (2 ≤ c.length)
  | .multiPolygon ps => ps.all fun rs => rs.all fun r => r.all fun c => decide (2 ≤ c.length)
  | .geometryCollection gs => validCoordsList gs

/-- `validCoords` over every member of a geometry collection. -/
def validCoordsList : List Value → Bool
  | [] => true
  | g :: gs => validCoords g && validCoordsList gs

end

theorem expand_vec_isSome (bb : BBox) (coords : List ℚ) (h : 2 ≤ coords.length) :
    (bb.expand_vec coords).isSome = true := by
  rcases coords with _ | ⟨x, _ | ⟨y, rest⟩⟩
  · simp at h
  · simp at h
  · simp [BBox.expand_vec]

theorem expand_vec_vec_isSome : ∀ (cs : List (List ℚ)) (bb : BBox),
    (∀ c ∈ cs, 2 ≤ c.length) → (bb.expand_vec_vec cs).isSome = true := by
  intro cs
  induction cs with
  | nil => intro bb _; simp [BBox.expand_vec_vec]
  | cons c rest ih =>
    intro bb h
    have h1 := expand_vec_isSome bb c (h c (by simp))
    obtain ⟨bb', hbb'⟩ := Option.isSome_iff_exists.mp h1
    have h2 := ih bb' (fun c hc => h c (by simp [hc]))
    simpa [BBox.expand_vec_vec, List.foldlM_cons, hbb'] using h2

theorem expand_vvv_isSome : ∀ (rs : List (List (List ℚ))) (bb : BBox),
    (∀ r ∈ rs, ∀ c ∈ r, 2 ≤ c.length) → (bb.expand_vec_vec_vec rs).isSome = true := by
  intro rs
  induction rs with
  | nil => intro bb _; simp [BBox.expand_vec_vec_vec]
  | cons r rest ih =>
    intro bb h
    have h1 := expand_vec_vec_isSome r bb (h r (by simp))
    obtain ⟨bb', hbb'⟩ := Option.isSome_iff_exists.mp h1
    have h2 := ih bb' (fun r hr => h r (by simp [hr]))
    simpa [BBox.expand_vec_vec_vec, List.foldlM_cons, hbb'] using h2

theorem expand_vvvv_isSome : ∀ (ps : List (List (List (List ℚ)))) (bb : BBox),
    (∀ p ∈ ps, ∀ r ∈ p, ∀ c ∈ r, 2 ≤ c.length) →
    (bb.expand_vec_vec_vec_vec ps).isSome = true := by
  intro ps
  induction ps with
  | nil => intro bb _; simp [BBox.expand_vec_vec_vec_vec]
  | cons p rest ih =>
    intro bb h
    have h1 := expand_vvv_isSome p bb (h p (by simp))
    obtain ⟨bb', hbb'⟩ := Option.isSome_iff_exists.mp h1
    have h2 := ih bb' (fun p hp => h p (by simp [hp]))
    simpa [BBox.expand_vec_vec_vec_vec, List.foldlM_cons, hbb'] using h2

mutual

theorem expand_geom_isSome : ∀ (g : Value) (bb : BBox), validCoords g = true →
    (bb.expand_geom g).isSome = true
  | .point c, bb, h => by
    rw [BBox.expand_geom]
    exact expand_vec_isSome bb c (by simpa [validCoords] using h)
  | .multiPoint cs, bb, h => by
    rw [BBox.expand_geom]
    refine expand_vec_vec_isSome cs bb ?_
    simpa [validCoords, List.all_eq_true] using h
  | .lineString cs, bb, h => by
    rw [BBox.expand_geom]
    refine expand_vec_vec_isSome cs bb ?_
    simpa [validCoords, List.all_eq_true] using h
  | .multiLineString ls, bb, h => by
    rw [BBox.expand_geom]
    refine expand_vvv_isSome ls bb ?_
    simpa [validCoords, List.all_eq_true] using h
  | .polygon rs, bb, h => by
    rw [BBox.expand_geom]
    refine expand_vvv_isSome rs bb ?_
    simpa [validCoords, List.all_eq_true] using h
  | .multiPolygon ps, bb, h => by
    rw [BBox.expand_geom]
    refine expand_vvvv_isSome ps bb ?_
    simpa [validCoords, List.all_eq_true] using h
  | .geometryCollection gs, bb, h => by
    rw [BBox.expand_geom]
    exact expandGeomList_isSome gs bb (by simpa [validCoords] using h)

theorem expandGeomList_isSome : ∀ (gs : List Value) (bb : BBox),
    validCoordsList gs = true →
    (BBox.expand_geom.expandGeomList bb gs).isSome = true
  | [], bb, h => by simp [BBox.expand_geom.expandGeomList]
  | g :: gs, bb, h => by
    have hh : validCoords g = true ∧ validCoordsList gs = true := by
      simpa [validCoordsList] using h
    have h1 := expand_geom_isSome g bb hh.1
    obtain ⟨bb', hbb'⟩ := Option.isSome_iff_exists.mp h1
    have h2 := expandGeomList_isSome gs bb' hh.2
    simpa [BBox.expand_geom.expandGeomList, hbb'] using h2

end

theorem firstPair_isSome (cs : List (List ℚ)) (h : ∀ c ∈ cs, 2 ≤ c.length) :
    (coord.firstPair cs).isSome = true := by
  match cs with
  | [] => simp [coord.firstPair]
  | c :: rest =>
    have hc := h c (by simp)
    rcases c with _ | ⟨x, _ | ⟨y, r⟩⟩
    · simp at hc
    · simp at hc
    · simp [coord.firstPair]

theorem coordArm_isSome : ∀ (g : Value), validCoords g = true →
    (coord.coordArm g).isSome = true
  | .point c, h => by
    have hc : 2 ≤ c.length := by simpa [validCoords] using h
    rcases c with _ | ⟨x, _ | ⟨y, r⟩⟩
    · simp at hc
    · simp at hc
    · simp [coord.coordArm]
  | .multiPoint cs, h => by
    rw [coord.coordArm]
    exact firstPair_isSome cs (by simpa [validCoords, List.all_eq_true] using h)
  | .lineString cs, h => by
    rw [coord.coordArm]
    exact firstPair_isSome cs (by simpa [validCoords, List.all_eq_true] using h)
  | .polygon rs, h => by
    match rs with
    | [] => simp [coord.coordArm]
    | r :: rest =>
      rw [coord.coordArm]
      refine firstPair_isSome r ?_
      have := (by simpa [validCoords, List.all_eq_true] using h :
        ∀ r' ∈ r :: rest, ∀ c ∈ r', 2 ≤ c.length)
      exact this r (by simp)
  | .multiLineString ls, h => by
    match ls with
    | [] => simp [coord.coordArm]
    | l :: rest =>
      rw [coord.coordArm]
      refine firstPair_isSome l ?_
      have := (by simpa [validCoords, List.all_eq_true] using h :
        ∀ l' ∈ l :: rest, ∀ c ∈ l', 2 ≤ c.length)
      exact this l (by simp)
  | .multiPolygon ps, h => by
    match ps with
    | [] => simp [coord.coordArm]
    | rs :: rest =>
      match rs with
      | [] => simp [coord.coordArm]
      | r :: rrest =>
        rw [coord.coordArm]
        refine firstPair_isSome r ?_
        have := (by simpa [validCoords, List.all_eq_true] using h :
          ∀ p ∈ (r :: rrest) :: rest, ∀ r' ∈ p, ∀ c ∈ r', 2 ≤ c.length)
        exact this (r :: rrest) (by simp) r (by simp)
  | .geometryCollection gs, h => by
    match gs with
    | [] => simp [coord.coordArm]
    | g :: rest =>
      have hl : validCoordsList (g :: rest) = true := by simpa [validCoords] using h
      have hh : validCoords g = true ∧ validCoordsList rest = true := by
        simpa [validCoordsList] using hl
      obtain ⟨o, ho⟩ := Option.isSome_iff_exists.mp (coordArm_isSome g hh.1)
      rw [coord.coordArm]
      simp [ho]

/-- C10: whenever every coordinate position anywhere in the feature's
geometry has at least two numbers, `BBox::for_feature` returns a bbox without
panicking: every `coords[0]`/`coords[1]` access performed during the
recursive expansion (and during the representative-coordinate lookup) is in
bounds. -/
theorem C10_for_feature_total (f : Feature)
    (h : ∀ g, f.geometry = some g → validCoords g = true) :
    (BBox.for_feature f).isSome = true := by
  rcases f with ⟨geo⟩
  rcases geo with _ | g
  · simp [BBox.for_feature, feat_coord, BBox.expand_feature]
  · have hv := h g rfl
    obtain ⟨o, ho⟩ := Option.isSome_iff_exists.mp (coordArm_isSome g hv)
    have hc : coord g = some (o.getD (0, 0)) := by simp [coord, ho]
    obtain ⟨bb, hbb⟩ := Option.isSome_iff_exists.mp
      (expand_geom_isSome g (BBox.new (o.getD (0, 0)).1 (o.getD (0, 0)).2) hv)
    simp [BBox.for_feature, feat_coord, hc, BBox.expand_feature, hbb]
    exact Option.isSome_iff_exists.mpr ⟨bb, by simpa using hbb⟩

/-- C10 witness: the feature `{geometry: Point [1, 2]}` satisfies the
precondition and `for_feature` succeeds on it. -/
theorem C10_witness :
    validCoords (Value.point [(1 : ℚ), 2]) = true ∧
      (BBox.for_feature ⟨some (Value.point [(1 : ℚ), 2])⟩).isSome = true := by
  refine ⟨by simp [validCoords], ?_⟩
  refine C10_for_feature_total _ ?_
  intro g hg
  have : Value.point [(1 : ℚ), 2] = g := by simpa using hg
  subst this
  simp [validCoords]

end Geoq.Geom

namespace Geoq.Hilbert

/-!
### C8: injectivity of the Hilbert encoder over the 16-bit grid

Proof outline.  The four scan rounds act bit-parallel: writing `tupK x y j`
for bit `j` of the four registers after round `K`, round 1 combines adjacent
initial bits (`h1c`), and each later round combines its input at `j` and at
`j + shift` with one fixed combiner (`comb`).  The combiner is a homomorphism
onto affine maps of the `(c, d)` data pair (`mu_comb`), which collapses the
whole network into a downward two-step recurrence for the final data bits
(`data4_rec`).  That recurrence drives a 17-state machine (`St`, `stepM`)
processed from bit 15 down to bit 0; over its reachable states `RSt` the
emitted `i1` bit together with the `i0` bit determines the consumed pair of
input bits (`RSt_step_inj`), which yields injectivity of `(x, y) ↦ (i0, i1)`
top-down.  Finally the interleave stage is inverted bit-by-bit
(`hilbert_testBit_even`/`_odd`). -/

/-- One bit position of the four scan registers `(a, b, c, d)`. -/
structure El where
  a : Bool
  b : Bool
  c : Bool
  d : Bool
  deriving DecidableEq, Repr

/-- The per-bit form of scan rounds 2–4: position `j` (`P`) combined with
position `j + shift` (`Q`). -/
def comb (P Q : El) : El where
  a := (P.a && Q.a) ^^ (P.b && Q.b)
  b := (P.a && Q.b) ^^ (P.b && (Q.a ^^ Q.b))
  c := P.c ^^ ((P.a && Q.c) ^^ (P.b && Q.d))
  d := P.d ^^ ((P.b && Q.c) ^^ ((P.a ^^ P.b) && Q.d))

/-- The per-bit form of the first (priming) scan round: position `j` (`t`)
with position `j + 1` (`u`). -/
def h1c (t u : El) : El where
  a := t.a || u.b
  b := u.a ^^ t.a
  c := (u.c ^^ (t.b && u.d)) ^^ t.c
  d := ((t.a && u.c) ^^ u.d) ^^ t.d

/-- An element acts on the `(c, d)` data pair flowing up from higher bits as
an affine map; `comb` composes these actions (`mu_comb`). -/
def mu (P : El) (pq : Bool × Bool) : Bool × Bool :=
  (P.c ^^ ((P.a && pq.1) ^^ (P.b && pq.2)),
   P.d ^^ ((P.b && pq.1) ^^ ((P.a ^^ P.b) && pq.2)))

theorem mu_comb (P Q : El) (pq : Bool × Bool) :
    mu (comb P Q) pq = mu P (mu Q pq) := by
  obtain ⟨a, b, c, d⟩ := P
  obtain ⟨a', b', c', d'⟩ := Q
  obtain ⟨p, q⟩ := pq
  revert a b c d a' b' c' d' p q
  decide

theorem data_mu (P : El) : (P.c, P.d) = mu P (false, false) := by
  obtain ⟨a, b, c, d⟩ := P
  revert a b c d
  decide

/-- The initial register tuple produced by the quadrant bits `(x_j, y_j)`
(valid at positions below 16, where the `0xFFFF` masks are all-ones). -/
def qtup (xb yb : Bool) : El := ⟨xb ^^ yb, !(xb ^^ yb), !(xb || yb), xb && !yb⟩

/-- Bit `j` of the initial registers. -/
def tup0 (x y j : ℕ) : El :=
  ⟨(a0 x y).testBit j, (b0 x y).testBit j, (c0 x y).testBit j, (d0 x y).testBit j⟩

/-- Bit `j` of the registers after round 1. -/
def tup1 (x y j : ℕ) : El :=
  ⟨(a1 x y).testBit j, (b1 x y).testBit j, (c1 x y).testBit j, (d1 x y).testBit j⟩

/-- Bit `j` of the registers after round 2. -/
def tup2 (x y j : ℕ) : El :=
  ⟨(a2 x y).testBit j, (b2 x y).testBit j, (c2 x y).testBit j, (d2 x y).testBit j⟩

/-- Bit `j` of the registers after round 3. -/
def tup3 (x y j : ℕ) : El :=
  ⟨(a3 x y).testBit j, (b3 x y).testBit j, (c3 x y).testBit j, (d3 x y).testBit j⟩

/-- Bit `j` of the final `(cc, dd)` data registers. -/
def data4 (x y j : ℕ) : Bool × Bool :=
  ((c4 x y).testBit j, (d4 x y).testBit j)

theorem tup1_eq (x y j : ℕ) : tup1 x y j = h1c (tup0 x y j) (tup0 x y (j + 1)) := by
  simp only [tup1, tup0, h1c, a1, b1, c1, d1, Nat.testBit_or, Nat.testBit_xor,
    Nat.testBit_and, Nat.testBit_shiftRight, Nat.add_comm 1 j]

theorem tup2_eq (x y j : ℕ) : tup2 x y j = comb (tup1 x y j) (tup1 x y (j + 2)) := by
  simp only [tup2, tup1, comb, a2, b2, c2, d2, Nat.testBit_or, Nat.testBit_xor,
    Nat.testBit_and, Nat.testBit_shiftRight, Nat.add_comm 2 j]

theorem tup3_eq (x y j : ℕ) : tup3 x y j = comb (tup2 x y j) (tup2 x y (j + 4)) := by
  simp only [tup3, tup2, comb, a3, b3, c3, d3, Nat.testBit_or, Nat.testBit_xor,
    Nat.testBit_and, Nat.testBit_shiftRight, Nat.add_comm 4 j]

theorem data4_eq (x y j : ℕ) :
    data4 x y j = ((comb (tup3 x y j) (tup3 x y (j + 8))).c,
      (comb (tup3 x y j) (tup3 x y (j + 8))).d) := by
  simp only [data4, tup3, comb, c4, d4, Nat.testBit_or, Nat.testBit_xor,
    Nat.testBit_and, Nat.testBit_shiftRight, Nat.add_comm 8 j]

end Geoq.Hilbert

namespace Geoq.Hilbert

/-- `0xFFFF` is `2^16 - 1`, so its bit `j` is `decide (j < 16)`. -/
theorem testBit_ffff (j : ℕ) : (0xFFFF : ℕ).testBit j = decide (j < 16) := by
  have : (0xFFFF : ℕ) = 2 ^ 16 - 1 := by norm_num
  rw [this, Nat.testBit_two_pow_sub_one]

theorem testBit_high {v : ℕ} (hv : v < 65536) {j : ℕ} (hj : 16 ≤ j) :
    v.testBit j = false := by
  refine Nat.testBit_lt_two_pow (lt_of_lt_of_le hv ?_)
  calc (65536 : ℕ) = 2 ^ 16 := by norm_num
  _ ≤ 2 ^ j := Nat.pow_le_pow_right (by norm_num) hj

/-- The all-zero element (what positions at or above 16 carry). -/
def elZ : El := ⟨false, false, false, false⟩

theorem tup0_high {x y : ℕ} (hx : x < 65536) (hy : y < 65536) {j : ℕ}
    (hj : 16 ≤ j) : tup0 x y j = elZ := by
  simp [tup0, elZ, a0, b0, c0, d0, Nat.testBit_xor, Nat.testBit_or,
    Nat.testBit_and, testBit_ffff, testBit_high hx hj, testBit_high hy hj,
    Nat.not_lt_of_le hj]

theorem tup1_high {x y : ℕ} (hx : x < 65536) (hy : y < 65536) {j : ℕ}
    (hj : 16 ≤ j) : tup1 x y j = elZ := by
  rw [tup1_eq, tup0_high hx hy hj, tup0_high hx hy (by omega : 16 ≤ j + 1)]
  decide

theorem tup2_high {x y : ℕ} (hx : x < 65536) (hy : y < 65536) {j : ℕ}
    (hj : 16 ≤ j) : tup2 x y j = elZ := by
  rw [tup2_eq, tup1_high hx hy hj, tup1_high hx hy (by omega : 16 ≤ j + 2)]
  decide

theorem tup3_high {x y : ℕ} (hx : x < 65536) (hy : y < 65536) {j : ℕ}
    (hj : 16 ≤ j) : tup3 x y j = elZ := by
  rw [tup3_eq, tup2_high hx hy hj, tup2_high hx hy (by omega : 16 ≤ j + 4)]
  decide

theorem data4_high {x y : ℕ} (hx : x < 65536) (hy : y < 65536) {j : ℕ}
    (hj : 16 ≤ j) : data4 x y j = (false, false) := by
  rw [data4_eq, tup3_high hx hy hj, tup3_high hx hy (by omega : 16 ≤ j + 8)]
  decide

theorem mu_elZ (pq : Bool × Bool) : mu elZ pq = (false, false) := by
  obtain ⟨p, q⟩ := pq
  revert p q
  decide

/-- The downward two-step recurrence for the final data bits: bit `j` of
`(cc, dd)` is the round-1 element at `j` acting on bits `j + 2` of
`(cc, dd)`. -/
theorem data4_rec (x y : ℕ) (hx : x < 65536) (hy : y < 65536) (j : ℕ) :
    data4 x y j = mu (tup1 x y j) (data4 x y (j + 2)) := by
  have h16 : tup1 x y (j + 16) = elZ := tup1_high hx hy (by omega)
  rw [data4_eq, data4_eq, data_mu, data_mu, mu_comb, mu_comb,
    tup3_eq x y j, tup3_eq x y (j + 8), tup3_eq x y (j + 2), tup3_eq x y (j + 10),
    mu_comb, mu_comb, mu_comb, mu_comb,
    tup2_eq x y j, tup2_eq x y (j + 4), tup2_eq x y (j + 8), tup2_eq x y (j + 12),
    tup2_eq x y (j + 2), tup2_eq x y (j + 6), tup2_eq x y (j + 10), tup2_eq x y (j + 14),
    mu_comb, mu_comb, mu_comb, mu_comb, mu_comb, mu_comb, mu_comb, mu_comb]
  have e1 : j + 2 + 2 = j + 4 := by omega
  have e2 : j + 4 + 2 = j + 6 := by omega
  have e3 : j + 8 + 2 = j + 10 := by omega
  have e4 : j + 8 + 4 = j + 12 := by omega
  have e5 : j + 12 + 2 = j + 14 := by omega
  have e6 : j + 2 + 4 = j + 6 := by omega
  have e7 : j + 6 + 2 = j + 8 := by omega
  have e8 : j + 10 + 2 = j + 12 := by omega
  have e9 : j + 10 + 4 = j + 14 := by omega
  have e10 : j + 14 + 2 = j + 16 := by omega
  rw [e1, e2, e3, e4, e5, e6, e7, e8, e9, e10, h16, mu_elZ]

end Geoq.Hilbert

namespace Geoq.Hilbert

theorem tup0_eq (x y j : ℕ) (hj : j < 16) :
    tup0 x y j = qtup (x.testBit j) (y.testBit j) := by
  simp only [tup0, qtup, a0, b0, c0, d0, Nat.testBit_xor, Nat.testBit_or,
    Nat.testBit_and, testBit_ffff, decide_eq_true hj, Bool.true_xor, Bool.xor_true]

/-- The state of the downward machine after consuming bit `j`: the final data
bits at `j` and `j + 1` and the initial register bits at `j`. -/
structure St where
  g1 : Bool × Bool
  g2 : Bool × Bool
  tp : El
  deriving DecidableEq, Repr

/-- One machine step: consume the quadrant `(xb, yb)` one bit below the
current position (the data recurrence `data4_rec` with the round-1 element
`h1c (qtup xb yb) tp`). -/
def stepM (s : St) (xb yb : Bool) : St :=
  ⟨mu (h1c (qtup xb yb) s.tp) s.g2, s.g1, qtup xb yb⟩

/-- The `i1` bit emitted at the machine's current position
(`i1 = b | (0xFFFF ^ (i0 | a))` with `a = cc ^ (cc >> 1)`,
`b = dd ^ (dd >> 1)` read off the state). -/
def outM (s : St) : Bool :=
  (s.g1.2 ^^ s.g2.2) || !(s.tp.a || (s.g1.1 ^^ s.g2.1))

/-- The machine state of a concrete run at position `j`. -/
def M (x y j : ℕ) : St := ⟨data4 x y j, data4 x y (j + 1), tup0 x y j⟩

/-- The 17 machine states reachable from the start state. -/
def RSt : List St :=
  [⟨(false, false), (false, false), ⟨false, false, false, false⟩⟩,
   ⟨(true, false), (false, false), ⟨false, true, true, false⟩⟩,
   ⟨(false, false), (false, false), ⟨true, false, false, false⟩⟩,
   ⟨(false, true), (false, false), ⟨true, false, false, true⟩⟩,
   ⟨(false, false), (false, false), ⟨false, true, false, false⟩⟩,
   ⟨(false, false), (true, false), ⟨false, true, true, false⟩⟩,
   ⟨(true, true), (true, false), ⟨true, false, false, false⟩⟩,
   ⟨(true, false), (true, false), ⟨true, false, false, true⟩⟩,
   ⟨(true, false), (true, false), ⟨false, true, false, false⟩⟩,
   ⟨(false, true), (false, true), ⟨false, true, true, false⟩⟩,
   ⟨(false, true), (false, true), ⟨true, false, false, false⟩⟩,
   ⟨(false, false), (false, true), ⟨true, false, false, true⟩⟩,
   ⟨(true, true), (false, true), ⟨false, true, false, false⟩⟩,
   ⟨(true, true), (true, true), ⟨false, true, true, false⟩⟩,
   ⟨(true, false), (true, true), ⟨true, false, false, false⟩⟩,
   ⟨(true, true), (true, true), ⟨true, false, false, true⟩⟩,
   ⟨(false, true), (true, true), ⟨false, true, false, false⟩⟩]

theorem RSt_base : (⟨(false, false), (false, false), elZ⟩ : St) ∈ RSt := by decide

theorem RSt_closed : ∀ s ∈ RSt, ∀ xb yb : Bool, stepM s xb yb ∈ RSt := by decide

/-- Over the reachable states, the emitted `i1` bit together with the `i0`
bit (`xb ^^ yb`) determines the consumed input bits. -/
theorem RSt_step_inj : ∀ s ∈ RSt, ∀ xb yb xb' yb' : Bool,
    (xb ^^ yb) = (xb' ^^ yb') →
    outM (stepM s xb yb) = outM (stepM s xb' yb') →
    xb = xb' ∧ yb = yb' := by decide

theorem M_base {x y : ℕ} (hx : x < 65536) (hy : y < 65536) :
    M x y 16 = ⟨(false, false), (false, false), elZ⟩ := by
  simp [M, data4_high hx hy (by omega : (16:ℕ) ≤ 16),
    data4_high hx hy (by omega : (16:ℕ) ≤ 17), tup0_high hx hy (by omega : (16:ℕ) ≤ 16)]

theorem M_step {x y : ℕ} (hx : x < 65536) (hy : y < 65536) {j : ℕ} (hj : j < 16) :
    M x y j = stepM (M x y (j + 1)) (x.testBit j) (y.testBit j) := by
  have h1 : data4 x y j =
      mu (h1c (qtup (x.testBit j) (y.testBit j)) (tup0 x y (j + 1))) (data4 x y (j + 2)) := by
    rw [data4_rec x y hx hy j, tup1_eq, tup0_eq x y j hj]
  simp [M, stepM, h1, tup0_eq x y j hj]

theorem M_mem {x y : ℕ} (hx : x < 65536) (hy : y < 65536) :
    ∀ k j, j + k = 16 → M x y j ∈ RSt := by
  intro k
  induction k with
  | zero =>
    intro j hj
    have : j = 16 := by omega
    subst this
    rw [M_base hx hy]
    exact RSt_base
  | succ k ih =>
    intro j hj
    rw [M_step hx hy (by omega : j < 16)]
    exact RSt_closed _ (ih (j + 1) (by omega)) _ _

/-- The emitted `i1` bit of a run is `outM` of its machine state. -/
theorem i1v_testBit (x y : ℕ) {j : ℕ} (hj : j < 16) :
    (i1v x y).testBit j = outM (M x y j) := by
  simp only [i1v, bF, aF, i0v, outM, M, data4, tup0, Nat.testBit_or,
    Nat.testBit_xor, Nat.testBit_shiftRight, testBit_ffff, decide_eq_true hj,
    Bool.true_xor, Nat.add_comm 1 j, a0]

/-- Top-down recovery: two runs with equal `i0` and `i1` words agree on all
bits at or above `j`, and their machines are in the same (reachable) state. -/
theorem bits_eq {x y x' y' : ℕ}
    (hx : x < 65536) (hy : y < 65536) (hx' : x' < 65536) (hy' : y' < 65536)
    (hi0 : i0v x y = i0v x' y') (hi1 : i1v x y = i1v x' y') :
    ∀ k j, j + k = 16 →
      (∀ m, j ≤ m → (x.testBit m = x'.testBit m ∧ y.testBit m = y'.testBit m)) ∧
        M x y j = M x' y' j := by
  intro k
  induction k with
  | zero =>
    intro j hj
    have : j = 16 := by omega
    subst this
    refine ⟨fun m hm => ⟨?_, ?_⟩, by rw [M_base hx hy, M_base hx' hy']⟩
    · rw [testBit_high hx hm, testBit_high hx' hm]
    · rw [testBit_high hy hm, testBit_high hy' hm]
  | succ k ih =>
    intro j hj
    obtain ⟨hbits, hM⟩ := ih (j + 1) (by omega)
    have hj16 : j < 16 := by omega
    have hmem : M x y (j + 1) ∈ RSt := M_mem hx hy (k + 1 - 1) (j + 1) (by omega)
    have hxor : (x.testBit j ^^ y.testBit j) = (x'.testBit j ^^ y'.testBit j) := by
      have := congrArg (fun v => v.testBit j) hi0
      simpa [i0v, Nat.testBit_xor] using this
    have hout : outM (stepM (M x y (j + 1)) (x.testBit j) (y.testBit j)) =
        outM (stepM (M x y (j + 1)) (x'.testBit j) (y'.testBit j)) := by
      have e1 : outM (M x y j) = outM (M x' y' j) := by
        rw [← i1v_testBit x y hj16, ← i1v_testBit x' y' hj16, hi1]
      calc outM (stepM (M x y (j + 1)) (x.testBit j) (y.testBit j))
          = outM (M x y j) := by rw [← M_step hx hy hj16]
        _ = outM (M x' y' j) := e1
        _ = outM (stepM (M x' y' (j + 1)) (x'.testBit j) (y'.testBit j)) := by
            rw [← M_step hx' hy' hj16]
        _ = outM (stepM (M x y (j + 1)) (x'.testBit j) (y'.testBit j)) := by rw [hM]
    obtain ⟨hxb, hyb⟩ := RSt_step_inj _ hmem _ _ _ _ hxor hout
    refine ⟨fun m hm => ?_, ?_⟩
    · rcases Nat.eq_or_lt_of_le hm with h | h
      · subst h
        exact ⟨hxb, hyb⟩
      · exact hbits m h
    · rw [M_step hx hy hj16, M_step hx' hy' hj16, hM, hxb, hyb]

/-- Injectivity of `(x, y) ↦ (i0, i1)` over the 16-bit grid. -/
theorem ii_inj {x y x' y' : ℕ}
    (hx : x < 65536) (hy : y < 65536) (hx' : x' < 65536) (hy' : y' < 65536)
    (hi0 : i0v x y = i0v x' y') (hi1 : i1v x y = i1v x' y') :
    x = x' ∧ y = y' := by
  obtain ⟨hbits, _⟩ := bits_eq hx hy hx' hy' hi0 hi1 16 0 (by omega)
  exact ⟨Nat.eq_of_testBit_eq fun m => (hbits m (by omega)).1,
    Nat.eq_of_testBit_eq fun m => (hbits m (by omega)).2⟩

end Geoq.Hilbert

namespace Geoq.Hilbert

theorem testBit_lt_pow {v n j : ℕ} (hv : v < 2 ^ n) (hj : n ≤ j) :
    v.testBit j = false :=
  Nat.testBit_lt_two_pow (lt_of_lt_of_le hv (Nat.pow_le_pow_right (by norm_num) hj))

theorem testBit_00ff00ff (j : ℕ) :
    (0x00FF00FF : ℕ).testBit j = (decide (j % 16 < 8) && decide (j < 32)) := by
  rcases Nat.lt_or_ge j 32 with h | h
  · interval_cases j <;> decide
  · rw [testBit_lt_pow (by norm_num : (0x00FF00FF : ℕ) < 2 ^ 32) h,
      decide_eq_false (by omega : ¬ j < 32), Bool.and_false]

theorem testBit_0f0f0f0f (j : ℕ) :
    (0x0F0F0F0F : ℕ).testBit j = (decide (j % 8 < 4) && decide (j < 32)) := by
  rcases Nat.lt_or_ge j 32 with h | h
  · interval_cases j <;> decide
  · rw [testBit_lt_pow (by norm_num : (0x0F0F0F0F : ℕ) < 2 ^ 32) h,
      decide_eq_false (by omega : ¬ j < 32), Bool.and_false]

theorem testBit_33333333 (j : ℕ) :
    (0x33333333 : ℕ).testBit j = (decide (j % 4 < 2) && decide (j < 32)) := by
  rcases Nat.lt_or_ge j 32 with h | h
  · interval_cases j <;> decide
  · rw [testBit_lt_pow (by norm_num : (0x33333333 : ℕ) < 2 ^ 32) h,
      decide_eq_false (by omega : ¬ j < 32), Bool.and_false]

theorem testBit_55555555 (j : ℕ) :
    (0x55555555 : ℕ).testBit j = (decide (j % 2 = 0) && decide (j < 32)) := by
  rcases Nat.lt_or_ge j 32 with h | h
  · interval_cases j <;> decide
  · rw [testBit_lt_pow (by norm_num : (0x55555555 : ℕ) < 2 ^ 32) h,
      decide_eq_false (by omega : ¬ j < 32), Bool.and_false]

theorem testBit_mod_u32 (x j : ℕ) :
    (x % U32).testBit j = (decide (j < 32) && x.testBit j) := by
  rw [U32, Nat.testBit_mod_two_pow]

/-- Even output bits of the interleave: bit `2j` of `spread v` is bit `j` of
`v` (for 16-bit `v`). -/
theorem spread_even (v : ℕ) (hv : ∀ m, 16 ≤ m → v.testBit m = false) :
    ∀ j, j < 16 → (spread v).testBit (2 * j) = v.testBit j := by
  intro j hj
  interval_cases j <;>
  · simp only [spread, testBit_mod_u32, Nat.testBit_or, Nat.testBit_and,
      Nat.testBit_shiftLeft, testBit_00ff00ff, testBit_0f0f0f0f,
      testBit_33333333, testBit_55555555]
    simp [hv]

/-- Odd output bits of the interleave are clear. -/
theorem spread_odd (v : ℕ) : ∀ j, (spread v).testBit (2 * j + 1) = false := by
  intro j
  simp only [spread, testBit_mod_u32, Nat.testBit_or, Nat.testBit_and,
    Nat.testBit_shiftLeft, testBit_55555555]
  simp [Nat.mul_add_mod]

theorem c4_high {x y : ℕ} (hx : x < 65536) (hy : y < 65536) {m : ℕ}
    (hm : 16 ≤ m) : (c4 x y).testBit m = false :=
  congrArg Prod.fst (data4_high hx hy hm)

theorem d4_high {x y : ℕ} (hx : x < 65536) (hy : y < 65536) {m : ℕ}
    (hm : 16 ≤ m) : (d4 x y).testBit m = false :=
  congrArg Prod.snd (data4_high hx hy hm)

theorem i0v_high {x y : ℕ} (hx : x < 65536) (hy : y < 65536) {m : ℕ}
    (hm : 16 ≤ m) : (i0v x y).testBit m = false := by
  simp [i0v, Nat.testBit_xor, testBit_high hx hm, testBit_high hy hm]

theorem i1v_high {x y : ℕ} (hx : x < 65536) (hy : y < 65536) {m : ℕ}
    (hm : 16 ≤ m) : (i1v x y).testBit m = false := by
  simp [i1v, bF, aF, Nat.testBit_or, Nat.testBit_xor, Nat.testBit_shiftRight,
    testBit_ffff, c4_high hx hy hm, d4_high hx hy hm,
    c4_high hx hy (by omega : 16 ≤ 1 + m), d4_high hx hy (by omega : 16 ≤ 1 + m),
    i0v_high hx hy hm, decide_eq_false (by omega : ¬ m < 16)]

/-- Bit `2j` of the encoder output is bit `j` of `i0`. -/
theorem hilbert_testBit_even {x y : ℕ} (hx : x < 65536) (hy : y < 65536)
    {j : ℕ} (hj : j < 16) :
    (hilbert x y).testBit (2 * j) = (i0v x y).testBit j := by
  have hs0 : (spread (i0v x y)).testBit (2 * j) = (i0v x y).testBit j :=
    spread_even _ (fun m hm => i0v_high hx hy hm) j hj
  have hfirst : ((spread (i1v x y) <<< 1) % U32).testBit (2 * j) = false := by
    rw [testBit_mod_u32, Nat.testBit_shiftLeft]
    rcases j with _ | k
    · simp
    · have e : 2 * (k + 1) - 1 = 2 * k + 1 := by omega
      simp [e, spread_odd]
  rw [hilbert, Nat.testBit_or, hfirst, Bool.false_or, hs0]

/-- Bit `2j + 1` of the encoder output is bit `j` of `i1`. -/
theorem hilbert_testBit_odd {x y : ℕ} (hx : x < 65536) (hy : y < 65536)
    {j : ℕ} (hj : j < 16) :
    (hilbert x y).testBit (2 * j + 1) = (i1v x y).testBit j := by
  have hs1 : (spread (i1v x y)).testBit (2 * j) = (i1v x y).testBit j :=
    spread_even _ (fun m hm => i1v_high hx hy hm) j hj
  have h2 : ((spread (i1v x y) <<< 1) % U32).testBit (2 * j + 1) = (i1v x y).testBit j := by
    rw [testBit_mod_u32, Nat.testBit_shiftLeft]
    have e : 2 * j + 1 - 1 = 2 * j := by omega
    rw [e]
    simp [hs1, decide_eq_true (show 2 * j + 1 < 32 by omega),
      decide_eq_true (show 2 * j + 1 ≥ 1 by omega)]
  rw [hilbert, Nat.testBit_or, h2, spread_odd, Bool.or_false]

/-- Equal encoder outputs force equal `(i0, i1)` pairs. -/
theorem hilbert_eq_ii {x y x' y' : ℕ}
    (hx : x < 65536) (hy : y < 65536) (hx' : x' < 65536) (hy' : y' < 65536)
    (h : hilbert x y = hilbert x' y') :
    i0v x y = i0v x' y' ∧ i1v x y = i1v x' y' := by
  constructor
  · refine Nat.eq_of_testBit_eq fun j => ?_
    rcases Nat.lt_or_ge j 16 with hj | hj
    · rw [← hilbert_testBit_even hx hy hj, ← hilbert_testBit_even hx' hy' hj, h]
    · rw [i0v_high hx hy hj, i0v_high hx' hy' hj]
  · refine Nat.eq_of_testBit_eq fun j => ?_
    rcases Nat.lt_or_ge j 16 with hj | hj
    · rw [← hilbert_testBit_odd hx hy hj, ← hilbert_testBit_odd hx' hy' hj, h]
    · rw [i1v_high hx hy hj, i1v_high hx' hy' hj]

/-- C8: the Hilbert encoder is injective over the 16-bit grid: distinct
coordinate pairs with all coordinates in `[0, 65535]` have distinct encoder
values. -/
theorem C8_hilbert_injective (x1 y1 x2 y2 : ℕ)
    (hx1 : x1 ≤ 65535) (hy1 : y1 ≤ 65535) (hx2 : x2 ≤ 65535) (hy2 : y2 ≤ 65535)
    (hne : ¬(x1 = x2 ∧ y1 = y2)) : hilbert x1 y1 ≠ hilbert x2 y2 := by
  intro h
  obtain ⟨h0, h1⟩ := hilbert_eq_ii (by omega) (by omega) (by omega) (by omega) h
  exact hne (ii_inj (by omega) (by omega) (by omega) (by omega) h0 h1)

/-- C8 witness: the injectivity theorem applied at the concrete pair
`(0, 0) ≠ (1, 0)`. -/
theorem C8_witness :
    (0 ≤ 65535 ∧ 1 ≤ 65535 ∧ ¬((0 : ℕ) = 1 ∧ (0 : ℕ) = 0)) ∧
      hilbert 0 0 ≠ hilbert 1 0 :=
  ⟨by decide, C8_hilbert_injective 0 0 1 0 (by decide) (by decide) (by decide)
    (by decide) (by decide)⟩

end Geoq.Hilbert
